import Mathlib

set_option autoImplicit false

/-!
Verification of the ordered-multiset core of `src/bst_avl.py`: the unbalanced
`BST` class and the self-balancing `AVL` class, each storing integer keys with
a duplicate `count`, together with the `get_min` / `get_max` / `get_sum`
queries and the `verify_avl_property` auditor.

Python's `None` child pointer is the `nil` constructor; a tree object whose
`root` is `None` is the `nil` tree.  Machine integers are `Int` (Python ints
are unbounded); `count` and `height` are `Nat` since every reachable value of
those fields is positive.  `get_min` / `get_max` raise `ValueError` on an
empty tree; the embedding returns `Option Int` with `none` for the raised
error.
-/

/-- A `BSTNode` (src/bst_avl.py lines 9-14): `value`, `count`, and the two
optional children; `nil` is the absent node (`None`). -/
inductive BSTree : Type where
  | nil : BSTree
  | node (value : Int) (count : Nat) (left right : BSTree) : BSTree
deriving DecidableEq

/-- An `AVLNode` (src/bst_avl.py lines 60-66): like `BSTNode` plus the stored
`height` field (initially 1). -/
inductive AVLTree : Type where
  | nil : AVLTree
  | node (value : Int) (count : Nat) (height : Nat) (left right : AVLTree) : AVLTree
deriving DecidableEq

namespace BST

/-- `BST._insert` (lines 23-32): recursive descent; smaller values go left,
larger go right, an equal value increments `count` in place. -/
def insertAux : BSTree → Int → BSTree
  | .nil, value => .node value 1 .nil .nil
  | .node v c l r, value =>
    if value < v then .node v c (insertAux l value) r
    else if v < value then .node v c l (insertAux r value)
    else .node v (c + 1) l r

/-- `BST.insert` (lines 20-21): replace the root with `_insert(root, value)`. -/
def insert (t : BSTree) (value : Int) : BSTree := insertAux t value

/-- Inserting a whole list, starting from the empty tree (the driver loop
`for v in values: bst.insert(v)`). -/
def insertList (xs : List Int) : BSTree := xs.foldl insert .nil

/-- The `while node.right is not None` descent of `BST.get_max` (lines 37-40),
carrying the value of the current node. -/
def maxFrom (v : Int) : BSTree → Int
  | .nil => v
  | .node w _ _ r => maxFrom w r

/-- The `while node.left is not None` descent of `BST.get_min` (lines 45-48). -/
def minFrom (v : Int) : BSTree → Int
  | .nil => v
  | .node w _ l _ => minFrom w l

/-- `BST.get_max` (lines 34-40): `none` models the raised `ValueError` on an
empty tree, otherwise the rightmost node's value. -/
def getMax : BSTree → Option Int
  | .nil => none
  | .node v _ _ r => some (maxFrom v r)

/-- `BST.get_min` (lines 42-48). -/
def getMin : BSTree → Option Int
  | .nil => none
  | .node v _ l _ => some (minFrom v l)

/-- `BST.get_sum` (lines 50-55): `value * count` summed over every node. -/
def getSum : BSTree → Int
  | .nil => 0
  | .node v c l r => v * (c : Int) + getSum l + getSum r

/-- `x` is the `value` of some node of the tree. -/
def Mem (x : Int) : BSTree → Prop
  | .nil => False
  | .node v _ l r => x = v ∨ Mem x l ∨ Mem x r

/-- Every node value satisfies `p`. -/
def All (p : Int → Prop) : BSTree → Prop
  | .nil => True
  | .node v _ l r => p v ∧ All p l ∧ All p r

/-- The binary-search ordering invariant: left-subtree values are strictly
below the node's value, right-subtree values strictly above. -/
def Ordered : BSTree → Prop
  | .nil => True
  | .node v _ l r => All (· < v) l ∧ All (v < ·) r ∧ Ordered l ∧ Ordered r

/-- Number of nodes (distinct stored values once `Ordered` holds). -/
def nodeCount : BSTree → Nat
  | .nil => 0
  | .node _ _ l r => 1 + nodeCount l + nodeCount r

/-- The tree with the `count` field of the node holding `v` incremented and
nothing else changed: what a duplicate insertion is claimed to do. -/
def incCount : BSTree → Int → BSTree
  | .nil, _ => .nil
  | .node w c l r, v =>
    if v < w then .node w c (incCount l v) r
    else if w < v then .node w c l (incCount r v)
    else .node w (c + 1) l r

end BST

namespace AVL

/-- `AVL._height` (lines 102-103): the stored height, 0 for an absent node. -/
def heightOf : AVLTree → Nat
  | .nil => 0
  | .node _ _ h _ _ => h

/-- The `value` field; the default 0 for `nil` is never exposed: every caller
(`_insert`'s rebalancing tests) has already established the node is present,
where Python would dereference `node.left.value` / `node.right.value`. -/
def valueOf : AVLTree → Int
  | .nil => 0
  | .node v _ _ _ _ => v

/-- `AVL._left_rotate` (lines 108-115): pivot `y = z.right`; `y.left` moves to
`z.right`, `z` becomes `y.left`; heights of `z` then `y` are recomputed from
stored child heights.  Python would raise on `y = None`; that case is
unreachable from `_insert`, and the embedding returns the tree unchanged. -/
def leftRotate : AVLTree → AVLTree
  | .node zv zc _ zl (.node yv yc _ yl yr) =>
      .node yv yc
        (1 + max (heightOf (AVLTree.node zv zc (1 + max (heightOf zl) (heightOf yl)) zl yl))
          (heightOf yr))
        (.node zv zc (1 + max (heightOf zl) (heightOf yl)) zl yl) yr
  | t => t

/-- `AVL._right_rotate` (lines 117-124): the mirror image. -/
def rightRotate : AVLTree → AVLTree
  | .node zv zc _ (.node yv yc _ yl yr) zr =>
      .node yv yc
        (1 + max (heightOf yl)
          (heightOf (AVLTree.node zv zc (1 + max (heightOf yr) (heightOf zr)) yr zr)))
        yl (.node zv zc (1 + max (heightOf yr) (heightOf zr)) yr zr)
  | t => t

/-- The tail of `AVL._insert` (lines 86-100): after the recursive call, the
node's height is recomputed, `balance = _height(left) - _height(right)` is
taken, and one of the four rotation cases (or none) applies.  The recomputed
height `1 + max (heightOf l) (heightOf r)` and the balance are written out
inline; they are exactly the `node.height` and `balance` locals of the
source. -/
def rebalance : AVLTree → Int → AVLTree
  | .nil, _ => .nil
  | .node v c _ l r, value =>
    if (heightOf l : Int) - (heightOf r : Int) > 1 ∧ value < valueOf l then
      rightRotate (.node v c (1 + max (heightOf l) (heightOf r)) l r)
    else if (heightOf l : Int) - (heightOf r : Int) < -1 ∧ valueOf r < value then
      leftRotate (.node v c (1 + max (heightOf l) (heightOf r)) l r)
    else if (heightOf l : Int) - (heightOf r : Int) > 1 ∧ valueOf l < value then
      rightRotate (.node v c (1 + max (heightOf l) (heightOf r)) (leftRotate l) r)
    else if (heightOf l : Int) - (heightOf r : Int) < -1 ∧ value < valueOf r then
      leftRotate (.node v c (1 + max (heightOf l) (heightOf r)) l (rightRotate r))
    else .node v c (1 + max (heightOf l) (heightOf r)) l r

/-- `AVL._insert` (lines 75-100): BST descent; a duplicate increments `count`
and returns at once (line 84), skipping the height/balance code; otherwise
the rebalancing tail runs on the updated node. -/
def insertAux : AVLTree → Int → AVLTree
  | .nil, value => .node value 1 1 .nil .nil
  | .node v c h l r, value =>
    if value < v then rebalance (.node v c h (insertAux l value) r) value
    else if v < value then rebalance (.node v c h l (insertAux r value)) value
    else .node v (c + 1) h l r

/-- `AVL.insert` (lines 72-73). -/
def insert (t : AVLTree) (value : Int) : AVLTree := insertAux t value

/-- Inserting a whole list, starting from the empty tree. -/
def insertList (xs : List Int) : AVLTree := xs.foldl insert .nil

/-- The descent of `AVL.get_max` (lines 129-132). -/
def maxFrom (v : Int) : AVLTree → Int
  | .nil => v
  | .node w _ _ _ r => maxFrom w r

/-- The descent of `AVL.get_min` (lines 137-140). -/
def minFrom (v : Int) : AVLTree → Int
  | .nil => v
  | .node w _ _ l _ => minFrom w l

/-- `AVL.get_max` (lines 126-132). -/
def getMax : AVLTree → Option Int
  | .nil => none
  | .node v _ _ _ r => some (maxFrom v r)

/-- `AVL.get_min` (lines 134-140). -/
def getMin : AVLTree → Option Int
  | .nil => none
  | .node v _ _ l _ => some (minFrom v l)

/-- `AVL.get_sum` (lines 142-147). -/
def getSum : AVLTree → Int
  | .nil => 0
  | .node v c _ l r => v * (c : Int) + getSum l + getSum r

/-- The inner `check_node` of `AVL.verify_avl_property` (lines 150-157):
returns (balanced?, recomputed height), ignoring the stored heights. -/
def checkNode : AVLTree → Bool × Nat
  | .nil => (true, 0)
  | .node _ _ _ l r =>
    (((checkNode l).1 && (checkNode r).1 &&
        decide ((((checkNode l).2 : Int) - ((checkNode r).2 : Int)).natAbs ≤ 1)),
      1 + max (checkNode l).2 (checkNode r).2)

/-- `AVL.verify_avl_property` (lines 149-160). -/
def verifyAvlProperty (t : AVLTree) : Bool := (checkNode t).1

/-- `x` is the `value` of some node of the tree. -/
def Mem (x : Int) : AVLTree → Prop
  | .nil => False
  | .node v _ _ l r => x = v ∨ Mem x l ∨ Mem x r

/-- Every node value satisfies `p`. -/
def All (p : Int → Prop) : AVLTree → Prop
  | .nil => True
  | .node v _ _ l r => p v ∧ All p l ∧ All p r

/-- The binary-search ordering invariant. -/
def Ordered : AVLTree → Prop
  | .nil => True
  | .node v _ _ l r => All (· < v) l ∧ All (v < ·) r ∧ Ordered l ∧ Ordered r

/-- The stored-height invariant: every node's `height` field equals
`1 + max` of its children's stored heights (0 for an absent child). -/
def HeightInv : AVLTree → Prop
  | .nil => True
  | .node _ _ h l r => h = 1 + max (heightOf l) (heightOf r) ∧ HeightInv l ∧ HeightInv r

/-- The AVL balance invariant, phrased on stored heights: together with
`HeightInv` this is the real height-balance of the shape. -/
def BalancedH : AVLTree → Prop
  | .nil => True
  | .node _ _ _ l r =>
    heightOf l ≤ heightOf r + 1 ∧ heightOf r ≤ heightOf l + 1 ∧ BalancedH l ∧ BalancedH r

/-- Number of nodes (distinct stored values once `Ordered` holds). -/
def nodeCount : AVLTree → Nat
  | .nil => 0
  | .node _ _ _ l r => 1 + nodeCount l + nodeCount r

/-- The tree with the `count` field of the node holding `v` incremented and
nothing else changed. -/
def incCount : AVLTree → Int → AVLTree
  | .nil, _ => .nil
  | .node w c h l r, v =>
    if v < w then .node w c h (incCount l v) r
    else if w < v then .node w c h l (incCount r v)
    else .node w (c + 1) h l r

/-- In-order listing of (value, count) pairs. -/
def inorder : AVLTree → List (Int × Nat)
  | .nil => []
  | .node v c _ l r => inorder l ++ (v, c) :: inorder r

end AVL

namespace BST

theorem All_impB {p q : Int → Prop} (h : ∀ x, p x → q x) :
    ∀ t : BSTree, All p t → All q t := by
  intro t
  induction t with
  | nil => intro _; trivial
  | node v c l r ihl ihr =>
    intro hall
    obtain ⟨h1, h2, h3⟩ := hall
    exact ⟨h v h1, ihl h2, ihr h3⟩

theorem All_memB {p : Int → Prop} {x : Int} :
    ∀ {t : BSTree}, All p t → Mem x t → p x := by
  intro t
  induction t with
  | nil => intro _ hm; exact absurd hm id
  | node v c l r ihl ihr =>
    intro hall hm
    obtain ⟨h1, h2, h3⟩ := hall
    rcases hm with h | h | h
    · exact h ▸ h1
    · exact ihl h2 h
    · exact ihr h3 h

theorem All_insertAuxB {p : Int → Prop} {value : Int} (hv : p value) :
    ∀ t : BSTree, All p t → All p (insertAux t value) := by
  intro t
  induction t with
  | nil => intro _; exact ⟨hv, trivial, trivial⟩
  | node v c l r ihl ihr =>
    intro hall
    obtain ⟨h1, h2, h3⟩ := hall
    simp only [insertAux]
    split
    · exact ⟨h1, ihl h2, h3⟩
    · split
      · exact ⟨h1, h2, ihr h3⟩
      · exact ⟨h1, h2, h3⟩

theorem Ordered_insertAuxB {value : Int} :
    ∀ t : BSTree, Ordered t → Ordered (insertAux t value) := by
  intro t
  induction t with
  | nil => intro _; exact ⟨trivial, trivial, trivial, trivial⟩
  | node v c l r ihl ihr =>
    intro hord
    obtain ⟨h1, h2, h3, h4⟩ := hord
    simp only [insertAux]
    split
    · exact ⟨All_insertAuxB (by assumption) l h1, h2, ihl h3, h4⟩
    · split
      · exact ⟨h1, All_insertAuxB (by assumption) r h2, h3, ihr h4⟩
      · exact ⟨h1, h2, h3, h4⟩

theorem mem_insertAuxB {x value : Int} :
    ∀ t : BSTree, Mem x (insertAux t value) ↔ x = value ∨ Mem x t := by
  intro t
  induction t with
  | nil => simp [insertAux, Mem]
  | node v c l r ihl ihr =>
    simp only [insertAux]
    split
    · simp only [Mem, ihl]; tauto
    · split
      · simp only [Mem, ihr]; tauto
      · have hxv : value = v := le_antisymm (not_lt.mp (by assumption)) (not_lt.mp (by assumption))
        subst hxv
        simp only [Mem]; tauto

theorem getSum_insertAuxB {value : Int} :
    ∀ t : BSTree, getSum (insertAux t value) = getSum t + value := by
  intro t
  induction t with
  | nil => simp [insertAux, getSum]
  | node v c l r ihl ihr =>
    simp only [insertAux]
    split
    · simp only [getSum, ihl]; ring
    · split
      · simp only [getSum, ihr]; ring
      · simp only [getSum]
        have hxv : value = v := le_antisymm (not_lt.mp (by assumption)) (not_lt.mp (by assumption))
        subst hxv
        push_cast
        ring

theorem insertAux_ne_nilB {value : Int} : ∀ t : BSTree, insertAux t value ≠ .nil := by
  intro t
  cases t with
  | nil => simp [insertAux]
  | node v c l r =>
    simp only [insertAux]
    split
    · simp
    · split <;> simp

theorem maxFrom_specB {x : Int} :
    ∀ (r : BSTree) (v : Int), Ordered r → All (v < ·) r →
      (maxFrom v r = v ∨ Mem (maxFrom v r) r) ∧ v ≤ maxFrom v r ∧
      (Mem x r → x ≤ maxFrom v r) := by
  intro r
  induction r with
  | nil => intro v _ _; exact ⟨Or.inl rfl, le_refl v, fun hm => absurd hm id⟩
  | node w c rl rr ihl ihr =>
    intro v hord hall
    obtain ⟨h1, h2, h3, h4⟩ := hord
    obtain ⟨hvw, hvl, hvr⟩ := hall
    obtain ⟨hmem, hle, hub⟩ := ihr w h4 h2
    simp only [maxFrom]
    refine ⟨?_, le_of_lt (lt_of_lt_of_le hvw hle), ?_⟩
    · rcases hmem with h | h
      · exact Or.inr (Or.inl h)
      · exact Or.inr (Or.inr (Or.inr h))
    · intro hm
      rcases hm with h | h | h
      · exact h ▸ hle
      · exact le_trans (le_of_lt (All_memB (p := fun y => y < w) h1 h)) hle
      · exact hub h

theorem minFrom_specB {x : Int} :
    ∀ (l : BSTree) (v : Int), Ordered l → All (· < v) l →
      (minFrom v l = v ∨ Mem (minFrom v l) l) ∧ minFrom v l ≤ v ∧
      (Mem x l → minFrom v l ≤ x) := by
  intro l
  induction l with
  | nil => intro v _ _; exact ⟨Or.inl rfl, le_refl v, fun hm => absurd hm id⟩
  | node w c ll lr ihl ihr =>
    intro v hord hall
    obtain ⟨h1, h2, h3, h4⟩ := hord
    obtain ⟨hwv, hvl, hvr⟩ := hall
    obtain ⟨hmem, hle, hlb⟩ := ihl w h3 h1
    simp only [minFrom]
    refine ⟨?_, le_of_lt (lt_of_le_of_lt hle hwv), ?_⟩
    · rcases hmem with h | h
      · exact Or.inr (Or.inl h)
      · exact Or.inr (Or.inr (Or.inl h))
    · intro hm
      rcases hm with h | h | h
      · exact h ▸ hle
      · exact hlb h
      · exact le_trans hle (le_of_lt (All_memB (p := fun y => w < y) h2 h))

theorem getMax_specB {t : BSTree} (hord : Ordered t) (hne : t ≠ .nil) :
    ∃ m, getMax t = some m ∧ Mem m t ∧ ∀ x, Mem x t → x ≤ m := by
  cases t with
  | nil => exact absurd rfl hne
  | node v c l r =>
    obtain ⟨h1, h2, h3, h4⟩ := hord
    obtain ⟨hmem, hle, -⟩ := maxFrom_specB (x := 0) r v h4 h2
    refine ⟨maxFrom v r, rfl, ?_, ?_⟩
    · rcases hmem with h | h
      · exact Or.inl h
      · exact Or.inr (Or.inr h)
    · intro x hm
      rcases hm with h | h | h
      · exact h ▸ hle
      · exact le_trans (le_of_lt (All_memB (p := fun y => y < v) h1 h)) hle
      · obtain ⟨-, -, hub⟩ := maxFrom_specB (x := x) r v h4 h2
        exact hub h

theorem getMin_specB {t : BSTree} (hord : Ordered t) (hne : t ≠ .nil) :
    ∃ m, getMin t = some m ∧ Mem m t ∧ ∀ x, Mem x t → m ≤ x := by
  cases t with
  | nil => exact absurd rfl hne
  | node v c l r =>
    obtain ⟨h1, h2, h3, h4⟩ := hord
    obtain ⟨hmem, hle, -⟩ := minFrom_specB (x := 0) l v h3 h1
    refine ⟨minFrom v l, rfl, ?_, ?_⟩
    · rcases hmem with h | h
      · exact Or.inl h
      · exact Or.inr (Or.inl h)
    · intro x hm
      rcases hm with h | h | h
      · exact h ▸ hle
      · obtain ⟨-, -, hlb⟩ := minFrom_specB (x := x) l v h3 h1
        exact hlb h
      · exact le_trans hle (le_of_lt (All_memB (p := fun y => v < y) h2 h))

theorem insertAux_eq_incCountB {v : Int} :
    ∀ t : BSTree, Ordered t → Mem v t → insertAux t v = incCount t v := by
  intro t
  induction t with
  | nil => intro _ hm; exact absurd hm id
  | node w c l r ihl ihr =>
    intro hord hm
    obtain ⟨h1, h2, h3, h4⟩ := hord
    simp only [insertAux, incCount]
    by_cases hvw : v < w
    · have hml : Mem v l := by
        rcases hm with h | h | h
        · exact absurd (h ▸ hvw) (lt_irrefl w)
        · exact h
        · exact absurd (All_memB (p := fun y => w < y) h2 h) (lt_asymm hvw)
      simp only [if_pos hvw, ihl h3 hml]
    · by_cases hwv : w < v
      · have hmr : Mem v r := by
          rcases hm with h | h | h
          · exact absurd (h ▸ hwv) (lt_irrefl w)
          · exact absurd (All_memB (p := fun y => y < w) h1 h) (lt_asymm hwv)
          · exact h
        simp only [if_neg hvw, if_pos hwv, ihr h4 hmr]
      · simp only [if_neg hvw, if_neg hwv]

theorem nodeCount_incCountB {v : Int} :
    ∀ t : BSTree, nodeCount (incCount t v) = nodeCount t := by
  intro t
  induction t with
  | nil => rfl
  | node w c l r ihl ihr =>
    simp only [incCount]
    split
    · simp [nodeCount, ihl]
    · split
      · simp [nodeCount, ihr]
      · rfl

theorem ordered_foldlB :
    ∀ (xs : List Int) (t : BSTree), Ordered t → Ordered (xs.foldl insert t)
  | [], _, h => h
  | x :: xs, t, h => ordered_foldlB xs (insert t x) (Ordered_insertAuxB t h)

theorem ordered_insertListB (xs : List Int) : Ordered (insertList xs) :=
  ordered_foldlB xs .nil trivial

theorem mem_foldlB {x : Int} :
    ∀ (xs : List Int) (t : BSTree), Mem x (xs.foldl insert t) ↔ Mem x t ∨ x ∈ xs := by
  intro xs
  induction xs with
  | nil => intro t; simp [List.foldl]
  | cons y ys ih =>
    intro t
    simp only [List.foldl_cons, ih, insert, mem_insertAuxB, List.mem_cons]
    tauto

theorem mem_insertListB {x : Int} (xs : List Int) : Mem x (insertList xs) ↔ x ∈ xs := by
  simp only [insertList, mem_foldlB, Mem]
  tauto

theorem getSum_foldlB :
    ∀ (xs : List Int) (t : BSTree), getSum (xs.foldl insert t) = getSum t + xs.sum := by
  intro xs
  induction xs with
  | nil => intro t; simp [List.foldl]
  | cons y ys ih =>
    intro t
    simp only [List.foldl_cons, ih, insert, getSum_insertAuxB, List.sum_cons]
    ring

theorem getSum_insertListB (xs : List Int) : getSum (insertList xs) = xs.sum := by
  simp [insertList, getSum_foldlB, getSum]

theorem foldl_ne_nilB :
    ∀ (xs : List Int) (t : BSTree), t ≠ .nil → xs.foldl insert t ≠ .nil
  | [], _, h => h
  | x :: xs, t, _ => foldl_ne_nilB xs (insert t x) (insertAux_ne_nilB t)

theorem insertList_eq_nil_iffB (xs : List Int) : insertList xs = .nil ↔ xs = [] := by
  cases xs with
  | nil => simp [insertList]
  | cons y ys =>
    simp only [insertList, List.foldl_cons]
    constructor
    · intro h
      exact absurd h (foldl_ne_nilB ys (insert .nil y) (insertAux_ne_nilB .nil))
    · intro h
      exact absurd h (by simp)

theorem getMax_eq_none_iffB : ∀ t : BSTree, getMax t = none ↔ t = .nil := by
  intro t
  cases t <;> simp [getMax]

theorem getMin_eq_none_iffB : ∀ t : BSTree, getMin t = none ↔ t = .nil := by
  intro t
  cases t <;> simp [getMin]

end BST

namespace AVL

theorem All_imp {p q : Int → Prop} (h : ∀ x, p x → q x) :
    ∀ t : AVLTree, All p t → All q t := by
  intro t
  induction t with
  | nil => intro _; trivial
  | node v c hh l r ihl ihr =>
    intro hall
    obtain ⟨h1, h2, h3⟩ := hall
    exact ⟨h v h1, ihl h2, ihr h3⟩

theorem All_mem {p : Int → Prop} {x : Int} :
    ∀ {t : AVLTree}, All p t → Mem x t → p x := by
  intro t
  induction t with
  | nil => intro _ hm; exact absurd hm id
  | node v c hh l r ihl ihr =>
    intro hall hm
    obtain ⟨h1, h2, h3⟩ := hall
    rcases hm with h | h | h
    · exact h ▸ h1
    · exact ihl h2 h
    · exact ihr h3 h

theorem All_leftRotate {p : Int → Prop} : ∀ t : AVLTree, All p t → All p (leftRotate t) := by
  intro t h
  cases t with
  | nil => exact h
  | node zv zc zh zl zr =>
    cases zr with
    | nil => exact h
    | node yv yc yh yl yr =>
      obtain ⟨h1, h2, h3, h4, h5⟩ := h
      exact ⟨h3, ⟨h1, h2, h4⟩, h5⟩

theorem All_rightRotate {p : Int → Prop} : ∀ t : AVLTree, All p t → All p (rightRotate t) := by
  intro t h
  cases t with
  | nil => exact h
  | node zv zc zh zl zr =>
    cases zl with
    | nil => exact h
    | node yv yc yh yl yr =>
      obtain ⟨h1, ⟨h2, h3, h4⟩, h5⟩ := h
      exact ⟨h2, h3, ⟨h1, h4, h5⟩⟩

theorem Ordered_leftRotate : ∀ t : AVLTree, Ordered t → Ordered (leftRotate t) := by
  intro t hord
  cases t with
  | nil => exact hord
  | node zv zc zh zl zr =>
    cases zr with
    | nil => exact hord
    | node yv yc yh yl yr =>
      obtain ⟨h1, ⟨hy, hyl, hyr⟩, h3, g1, g2, g3, g4⟩ := hord
      exact ⟨⟨hy, All_imp (fun x hx => lt_trans hx hy) zl h1, g1⟩, g2,
        ⟨h1, hyl, h3, g3⟩, g4⟩

theorem Ordered_rightRotate : ∀ t : AVLTree, Ordered t → Ordered (rightRotate t) := by
  intro t hord
  cases t with
  | nil => exact hord
  | node zv zc zh zl zr =>
    cases zl with
    | nil => exact hord
    | node yv yc yh yl yr =>
      obtain ⟨⟨hy, hyl, hyr⟩, h2, ⟨g1, g2, g3, g4⟩, h4⟩ := hord
      exact ⟨g1, ⟨hy, g2, All_imp (fun x hx => lt_trans hy hx) zr h2⟩, g3,
        ⟨hyr, h2, g4, h4⟩⟩

theorem Mem_leftRotate {x : Int} : ∀ t : AVLTree, Mem x (leftRotate t) ↔ Mem x t := by
  intro t
  cases t with
  | nil => exact Iff.rfl
  | node zv zc zh zl zr =>
    cases zr with
    | nil => exact Iff.rfl
    | node yv yc yh yl yr => simp only [leftRotate, Mem]; tauto

theorem Mem_rightRotate {x : Int} : ∀ t : AVLTree, Mem x (rightRotate t) ↔ Mem x t := by
  intro t
  cases t with
  | nil => exact Iff.rfl
  | node zv zc zh zl zr =>
    cases zl with
    | nil => exact Iff.rfl
    | node yv yc yh yl yr => simp only [rightRotate, Mem]; tauto

theorem getSum_leftRotate : ∀ t : AVLTree, getSum (leftRotate t) = getSum t := by
  intro t
  cases t with
  | nil => rfl
  | node zv zc zh zl zr =>
    cases zr with
    | nil => rfl
    | node yv yc yh yl yr => simp only [leftRotate, getSum]; ring

theorem getSum_rightRotate : ∀ t : AVLTree, getSum (rightRotate t) = getSum t := by
  intro t
  cases t with
  | nil => rfl
  | node zv zc zh zl zr =>
    cases zl with
    | nil => rfl
    | node yv yc yh yl yr => simp only [rightRotate, getSum]; ring

theorem inorder_leftRotate : ∀ t : AVLTree, inorder (leftRotate t) = inorder t := by
  intro t
  cases t with
  | nil => rfl
  | node zv zc zh zl zr =>
    cases zr with
    | nil => rfl
    | node yv yc yh yl yr => simp [leftRotate, inorder]

theorem inorder_rightRotate : ∀ t : AVLTree, inorder (rightRotate t) = inorder t := by
  intro t
  cases t with
  | nil => rfl
  | node zv zc zh zl zr =>
    cases zl with
    | nil => rfl
    | node yv yc yh yl yr => simp [rightRotate, inorder]

theorem leftRotate_node_ne_nil {zv : Int} {zc zh : Nat} {zl zr : AVLTree} :
    leftRotate (.node zv zc zh zl zr) ≠ .nil := by
  cases zr <;> simp [leftRotate]

theorem rightRotate_node_ne_nil {zv : Int} {zc zh : Nat} {zl zr : AVLTree} :
    rightRotate (.node zv zc zh zl zr) ≠ .nil := by
  cases zl <;> simp [rightRotate]

theorem All_rebalance {p : Int → Prop} {value : Int} :
    ∀ t : AVLTree, All p t → All p (rebalance t value) := by
  intro t h
  cases t with
  | nil => exact h
  | node v c hh l r =>
    obtain ⟨h1, h2, h3⟩ := h
    simp only [rebalance]
    split
    · exact All_rightRotate _ ⟨h1, h2, h3⟩
    · split
      · exact All_leftRotate _ ⟨h1, h2, h3⟩
      · split
        · exact All_rightRotate _ ⟨h1, All_leftRotate l h2, h3⟩
        · split
          · exact All_leftRotate _ ⟨h1, h2, All_rightRotate r h3⟩
          · exact ⟨h1, h2, h3⟩

theorem Ordered_rebalance {value : Int} :
    ∀ t : AVLTree, Ordered t → Ordered (rebalance t value) := by
  intro t h
  cases t with
  | nil => exact h
  | node v c hh l r =>
    obtain ⟨h1, h2, h3, h4⟩ := h
    simp only [rebalance]
    split
    · exact Ordered_rightRotate _ ⟨h1, h2, h3, h4⟩
    · split
      · exact Ordered_leftRotate _ ⟨h1, h2, h3, h4⟩
      · split
        · exact Ordered_rightRotate _ ⟨All_leftRotate l h1, h2, Ordered_leftRotate l h3, h4⟩
        · split
          · exact Ordered_leftRotate _ ⟨h1, All_rightRotate r h2, h3, Ordered_rightRotate r h4⟩
          · exact ⟨h1, h2, h3, h4⟩

theorem Mem_rebalance {x value : Int} :
    ∀ t : AVLTree, Mem x (rebalance t value) ↔ Mem x t := by
  intro t
  cases t with
  | nil => exact Iff.rfl
  | node v c hh l r =>
    simp only [rebalance]
    split
    · rw [Mem_rightRotate]; exact Iff.rfl
    · split
      · rw [Mem_leftRotate]; exact Iff.rfl
      · split
        · rw [Mem_rightRotate]; simp only [Mem, Mem_leftRotate]
        · split
          · rw [Mem_leftRotate]; simp only [Mem, Mem_rightRotate]
          · exact Iff.rfl

theorem getSum_rebalance {value : Int} :
    ∀ t : AVLTree, getSum (rebalance t value) = getSum t := by
  intro t
  cases t with
  | nil => rfl
  | node v c hh l r =>
    simp only [rebalance]
    split
    · rw [getSum_rightRotate]; rfl
    · split
      · rw [getSum_leftRotate]; rfl
      · split
        · rw [getSum_rightRotate]; simp only [getSum, getSum_leftRotate]
        · split
          · rw [getSum_leftRotate]; simp only [getSum, getSum_rightRotate]
          · rfl

theorem rebalance_node_ne_nil {value v : Int} {c hh : Nat} {l r : AVLTree} :
    rebalance (.node v c hh l r) value ≠ .nil := by
  simp only [rebalance]
  split
  · exact rightRotate_node_ne_nil
  · split
    · exact leftRotate_node_ne_nil
    · split
      · exact rightRotate_node_ne_nil
      · split
        · exact leftRotate_node_ne_nil
        · simp

theorem All_insertAux {p : Int → Prop} {value : Int} (hv : p value) :
    ∀ t : AVLTree, All p t → All p (insertAux t value) := by
  intro t
  induction t with
  | nil => intro _; exact ⟨hv, trivial, trivial⟩
  | node v c hh l r ihl ihr =>
    intro hall
    obtain ⟨h1, h2, h3⟩ := hall
    simp only [insertAux]
    split
    · exact All_rebalance _ ⟨h1, ihl h2, h3⟩
    · split
      · exact All_rebalance _ ⟨h1, h2, ihr h3⟩
      · exact ⟨h1, h2, h3⟩

theorem Ordered_insertAux {value : Int} :
    ∀ t : AVLTree, Ordered t → Ordered (insertAux t value) := by
  intro t
  induction t with
  | nil => intro _; exact ⟨trivial, trivial, trivial, trivial⟩
  | node v c hh l r ihl ihr =>
    intro hord
    obtain ⟨h1, h2, h3, h4⟩ := hord
    simp only [insertAux]
    split
    · exact Ordered_rebalance _ ⟨All_insertAux (by assumption) l h1, h2, ihl h3, h4⟩
    · split
      · exact Ordered_rebalance _ ⟨h1, All_insertAux (by assumption) r h2, h3, ihr h4⟩
      · exact ⟨h1, h2, h3, h4⟩

theorem mem_insertAux {x value : Int} :
    ∀ t : AVLTree, Mem x (insertAux t value) ↔ x = value ∨ Mem x t := by
  intro t
  induction t with
  | nil => simp [insertAux, Mem]
  | node v c hh l r ihl ihr =>
    simp only [insertAux]
    split
    · rw [Mem_rebalance]; simp only [Mem, ihl]; tauto
    · split
      · rw [Mem_rebalance]; simp only [Mem, ihr]; tauto
      · have hxv : value = v := le_antisymm (not_lt.mp (by assumption)) (not_lt.mp (by assumption))
        subst hxv
        simp only [Mem]; tauto

theorem getSum_insertAux {value : Int} :
    ∀ t : AVLTree, getSum (insertAux t value) = getSum t + value := by
  intro t
  induction t with
  | nil => simp [insertAux, getSum]
  | node v c hh l r ihl ihr =>
    simp only [insertAux]
    split
    · rw [getSum_rebalance]; simp only [getSum, ihl]; ring
    · split
      · rw [getSum_rebalance]; simp only [getSum, ihr]; ring
      · simp only [getSum]
        have hxv : value = v := le_antisymm (not_lt.mp (by assumption)) (not_lt.mp (by assumption))
        subst hxv
        push_cast
        ring

theorem insertAux_ne_nil {value : Int} : ∀ t : AVLTree, insertAux t value ≠ .nil := by
  intro t
  cases t with
  | nil => simp [insertAux]
  | node v c hh l r =>
    simp only [insertAux]
    split
    · exact rebalance_node_ne_nil
    · split
      · exact rebalance_node_ne_nil
      · simp

theorem maxFrom_spec {x : Int} :
    ∀ (r : AVLTree) (v : Int), Ordered r → All (v < ·) r →
      (maxFrom v r = v ∨ Mem (maxFrom v r) r) ∧ v ≤ maxFrom v r ∧
      (Mem x r → x ≤ maxFrom v r) := by
  intro r
  induction r with
  | nil => intro v _ _; exact ⟨Or.inl rfl, le_refl v, fun hm => absurd hm id⟩
  | node w c hh rl rr ihl ihr =>
    intro v hord hall
    obtain ⟨h1, h2, h3, h4⟩ := hord
    obtain ⟨hvw, hvl, hvr⟩ := hall
    obtain ⟨hmem, hle, hub⟩ := ihr w h4 h2
    simp only [maxFrom]
    refine ⟨?_, le_of_lt (lt_of_lt_of_le hvw hle), ?_⟩
    · rcases hmem with h | h
      · exact Or.inr (Or.inl h)
      · exact Or.inr (Or.inr (Or.inr h))
    · intro hm
      rcases hm with h | h | h
      · exact h ▸ hle
      · exact le_trans (le_of_lt (All_mem (p := fun y => y < w) h1 h)) hle
      · exact hub h

theorem minFrom_spec {x : Int} :
    ∀ (l : AVLTree) (v : Int), Ordered l → All (· < v) l →
      (minFrom v l = v ∨ Mem (minFrom v l) l) ∧ minFrom v l ≤ v ∧
      (Mem x l → minFrom v l ≤ x) := by
  intro l
  induction l with
  | nil => intro v _ _; exact ⟨Or.inl rfl, le_refl v, fun hm => absurd hm id⟩
  | node w c hh ll lr ihl ihr =>
    intro v hord hall
    obtain ⟨h1, h2, h3, h4⟩ := hord
    obtain ⟨hwv, hvl, hvr⟩ := hall
    obtain ⟨hmem, hle, hlb⟩ := ihl w h3 h1
    simp only [minFrom]
    refine ⟨?_, le_of_lt (lt_of_le_of_lt hle hwv), ?_⟩
    · rcases hmem with h | h
      · exact Or.inr (Or.inl h)
      · exact Or.inr (Or.inr (Or.inl h))
    · intro hm
      rcases hm with h | h | h
      · exact h ▸ hle
      · exact hlb h
      · exact le_trans hle (le_of_lt (All_mem (p := fun y => w < y) h2 h))

theorem getMax_spec {t : AVLTree} (hord : Ordered t) (hne : t ≠ .nil) :
    ∃ m, getMax t = some m ∧ Mem m t ∧ ∀ x, Mem x t → x ≤ m := by
  cases t with
  | nil => exact absurd rfl hne
  | node v c hh l r =>
    obtain ⟨h1, h2, h3, h4⟩ := hord
    obtain ⟨hmem, hle, -⟩ := maxFrom_spec (x := 0) r v h4 h2
    refine ⟨maxFrom v r, rfl, ?_, ?_⟩
    · rcases hmem with h | h
      · exact Or.inl h
      · exact Or.inr (Or.inr h)
    · intro x hm
      rcases hm with h | h | h
      · exact h ▸ hle
      · exact le_trans (le_of_lt (All_mem (p := fun y => y < v) h1 h)) hle
      · obtain ⟨-, -, hub⟩ := maxFrom_spec (x := x) r v h4 h2
        exact hub h

theorem getMin_spec {t : AVLTree} (hord : Ordered t) (hne : t ≠ .nil) :
    ∃ m, getMin t = some m ∧ Mem m t ∧ ∀ x, Mem x t → m ≤ x := by
  cases t with
  | nil => exact absurd rfl hne
  | node v c hh l r =>
    obtain ⟨h1, h2, h3, h4⟩ := hord
    obtain ⟨hmem, hle, -⟩ := minFrom_spec (x := 0) l v h3 h1
    refine ⟨minFrom v l, rfl, ?_, ?_⟩
    · rcases hmem with h | h
      · exact Or.inl h
      · exact Or.inr (Or.inl h)
    · intro x hm
      rcases hm with h | h | h
      · exact h ▸ hle
      · obtain ⟨-, -, hlb⟩ := minFrom_spec (x := x) l v h3 h1
        exact hlb h
      · exact le_trans hle (le_of_lt (All_mem (p := fun y => v < y) h2 h))

theorem ordered_foldl :
    ∀ (xs : List Int) (t : AVLTree), Ordered t → Ordered (xs.foldl insert t)
  | [], _, h => h
  | x :: xs, t, h => ordered_foldl xs (insert t x) (Ordered_insertAux t h)

theorem ordered_insertList (xs : List Int) : Ordered (insertList xs) :=
  ordered_foldl xs .nil trivial

theorem mem_foldl {x : Int} :
    ∀ (xs : List Int) (t : AVLTree), Mem x (xs.foldl insert t) ↔ Mem x t ∨ x ∈ xs := by
  intro xs
  induction xs with
  | nil => intro t; simp [List.foldl]
  | cons y ys ih =>
    intro t
    simp only [List.foldl_cons, ih, insert, mem_insertAux, List.mem_cons]
    tauto

theorem mem_insertList {x : Int} (xs : List Int) : Mem x (insertList xs) ↔ x ∈ xs := by
  simp only [insertList, mem_foldl, Mem]
  tauto

theorem getSum_foldl :
    ∀ (xs : List Int) (t : AVLTree), getSum (xs.foldl insert t) = getSum t + xs.sum := by
  intro xs
  induction xs with
  | nil => intro t; simp [List.foldl]
  | cons y ys ih =>
    intro t
    simp only [List.foldl_cons, ih, insert, getSum_insertAux, List.sum_cons]
    ring

theorem getSum_insertList (xs : List Int) : getSum (insertList xs) = xs.sum := by
  simp [insertList, getSum_foldl, getSum]

theorem foldl_ne_nil :
    ∀ (xs : List Int) (t : AVLTree), t ≠ .nil → xs.foldl insert t ≠ .nil
  | [], _, h => h
  | x :: xs, t, _ => foldl_ne_nil xs (insert t x) (insertAux_ne_nil t)

theorem insertList_eq_nil_iff (xs : List Int) : insertList xs = .nil ↔ xs = [] := by
  cases xs with
  | nil => simp [insertList]
  | cons y ys =>
    simp only [insertList, List.foldl_cons]
    constructor
    · intro h
      exact absurd h (foldl_ne_nil ys (insert .nil y) (insertAux_ne_nil .nil))
    · intro h
      exact absurd h (by simp)

theorem getMax_eq_none_iff : ∀ t : AVLTree, getMax t = none ↔ t = .nil := by
  intro t
  cases t <;> simp [getMax]

theorem getMin_eq_none_iff : ∀ t : AVLTree, getMin t = none ↔ t = .nil := by
  intro t
  cases t <;> simp [getMin]


theorem heightOf_nil : heightOf .nil = 0 := rfl

theorem heightOf_node (v : Int) (c hh : Nat) (l r : AVLTree) :
    heightOf (.node v c hh l r) = hh := rfl

theorem valueOf_node (v : Int) (c hh : Nat) (l r : AVLTree) :
    valueOf (.node v c hh l r) = v := rfl

theorem rebalance_left_spec (v value : Int) (c h0 : Nat) (l r : AVLTree)
    (hIl : HeightInv l) (hBl : BalancedH l) (hIr : HeightInv r) (hBr : BalancedH r)
    (hub : heightOf l ≤ heightOf r + 2) (hlb : heightOf r ≤ heightOf l + 1)
    (hshape : heightOf l = heightOf r + 2 →
      ∃ lv lc lh a b, l = .node lv lc lh a b ∧
        ((value < lv ∧ heightOf a = heightOf b + 1) ∨
          (lv < value ∧ heightOf b = heightOf a + 1))) :
    HeightInv (rebalance (.node v c h0 l r) value) ∧
    BalancedH (rebalance (.node v c h0 l r) value) ∧
    ((heightOf l ≤ heightOf r + 1 ∧
        rebalance (.node v c h0 l r) value = .node v c (1 + max (heightOf l) (heightOf r)) l r) ∨
      (heightOf l = heightOf r + 2 ∧
        heightOf (rebalance (.node v c h0 l r) value) = heightOf r + 2)) := by
  simp only [rebalance]
  split
  · rename_i hc
    obtain ⟨hbal, hvlt⟩ := hc
    have hl2 : heightOf l = heightOf r + 2 := by omega
    obtain ⟨lv, lc, lh, a, b, rfl, hdich⟩ := hshape hl2
    rw [valueOf_node] at hvlt
    rw [heightOf_node] at hl2
    obtain ⟨hlh, hIa, hIb⟩ := hIl
    obtain ⟨hle1, hle2, hBa, hBb⟩ := hBl
    rcases hdich with ⟨-, hab⟩ | ⟨hgt, -⟩
    swap
    · exact absurd hvlt (lt_asymm hgt)
    have e1 : max (heightOf a) (heightOf b) = heightOf a := max_eq_left (by omega)
    rw [e1] at hlh
    have ha1 : heightOf a = heightOf r + 1 := by omega
    have hb1 : heightOf b = heightOf r := by omega
    simp only [rightRotate]
    refine ⟨⟨rfl, hIa, rfl, hIb, hIr⟩, ⟨?_, ?_, hBa, ?_, ?_, hBb, hBr⟩,
      Or.inr ⟨?_, ?_⟩⟩
    all_goals try simp only [heightOf_nil, heightOf_node, Nat.max_def]
    all_goals first
      | (split_ifs <;> omega)
      | omega
  · split
    · rename_i hc
      exact absurd hc.1 (by omega)
    · split
      · rename_i hc
        obtain ⟨hbal, hvgt⟩ := hc
        have hl2 : heightOf l = heightOf r + 2 := by omega
        obtain ⟨lv, lc, lh, a, b, rfl, hdich⟩ := hshape hl2
        rw [valueOf_node] at hvgt
        rw [heightOf_node] at hl2
        obtain ⟨hlh, hIa, hIb⟩ := hIl
        obtain ⟨hle1, hle2, hBa, hBb⟩ := hBl
        rcases hdich with ⟨hlt, -⟩ | ⟨-, hab⟩
        · exact absurd hvgt (lt_asymm hlt)
        cases b with
        | nil => rw [heightOf_nil] at hab; omega
        | node mv mc mh m1 m2 =>
          rw [heightOf_node] at hab hlh hle1 hle2
          obtain ⟨hmh, hIm1, hIm2⟩ := hIb
          obtain ⟨hbm1, hbm2, hBm1, hBm2⟩ := hBb
          have e1 : max (heightOf a) mh = mh := max_eq_right (by omega)
          rw [e1] at hlh
          have hmv : mh = heightOf r + 1 := by omega
          have ha1 : heightOf a = heightOf r := by omega
          have hmf : heightOf m1 ≤ heightOf r ∧ heightOf r ≤ heightOf m1 + 1 ∧
              heightOf m2 ≤ heightOf r ∧ heightOf r ≤ heightOf m2 + 1 := by
            rcases max_cases (heightOf m1) (heightOf m2) with ⟨e, hle⟩ | ⟨e, hle⟩ <;>
              rw [e] at hmh <;> omega
          obtain ⟨hf1, hf2, hf3, hf4⟩ := hmf
          simp only [leftRotate, rightRotate]
          refine ⟨⟨rfl, ⟨rfl, hIa, hIm1⟩, rfl, hIm2, hIr⟩,
            ⟨?_, ?_, ⟨?_, ?_, hBa, hBm1⟩, ?_, ?_, hBm2, hBr⟩,
            Or.inr ⟨?_, ?_⟩⟩
          all_goals try simp only [heightOf_nil, heightOf_node, Nat.max_def]
          all_goals first
            | (split_ifs <;> omega)
            | omega
      · split
        · rename_i hc
          exact absurd hc.1 (by omega)
        · rename_i hn1 hn2 hn3 hn4
          have hle : heightOf l ≤ heightOf r + 1 := by
            by_contra hgtc
            have hl2 : heightOf l = heightOf r + 2 := by omega
            obtain ⟨lv, lc, lh, a, b, heq, hdich⟩ := hshape hl2
            subst heq
            rcases hdich with ⟨h1, -⟩ | ⟨h1, -⟩
            · exact hn1 ⟨by omega, by rw [valueOf_node]; exact h1⟩
            · exact hn3 ⟨by omega, by rw [valueOf_node]; exact h1⟩
          exact ⟨⟨rfl, hIl, hIr⟩, ⟨hle, hlb, hBl, hBr⟩, Or.inl ⟨hle, rfl⟩⟩

theorem rebalance_right_spec (v value : Int) (c h0 : Nat) (l r : AVLTree)
    (hIl : HeightInv l) (hBl : BalancedH l) (hIr : HeightInv r) (hBr : BalancedH r)
    (hub : heightOf r ≤ heightOf l + 2) (hlb : heightOf l ≤ heightOf r + 1)
    (hshape : heightOf r = heightOf l + 2 →
      ∃ rv rc rh a b, r = .node rv rc rh a b ∧
        ((value < rv ∧ heightOf a = heightOf b + 1) ∨
          (rv < value ∧ heightOf b = heightOf a + 1))) :
    HeightInv (rebalance (.node v c h0 l r) value) ∧
    BalancedH (rebalance (.node v c h0 l r) value) ∧
    ((heightOf r ≤ heightOf l + 1 ∧
        rebalance (.node v c h0 l r) value = .node v c (1 + max (heightOf l) (heightOf r)) l r) ∨
      (heightOf r = heightOf l + 2 ∧
        heightOf (rebalance (.node v c h0 l r) value) = heightOf l + 2)) := by
  simp only [rebalance]
  split
  · rename_i hc
    exact absurd hc.1 (by omega)
  · split
    · rename_i hc
      obtain ⟨hbal, hvgt⟩ := hc
      have hr2 : heightOf r = heightOf l + 2 := by omega
      obtain ⟨rv, rc, rh, a, b, rfl, hdich⟩ := hshape hr2
      rw [valueOf_node] at hvgt
      rw [heightOf_node] at hr2
      obtain ⟨hrh, hIa, hIb⟩ := hIr
      obtain ⟨hle1, hle2, hBa, hBb⟩ := hBr
      rcases hdich with ⟨hlt, -⟩ | ⟨-, hab⟩
      · exact absurd hvgt (lt_asymm hlt)
      have e1 : max (heightOf a) (heightOf b) = heightOf b := max_eq_right (by omega)
      rw [e1] at hrh
      have hb1 : heightOf b = heightOf l + 1 := by omega
      have ha1 : heightOf a = heightOf l := by omega
      simp only [leftRotate]
      refine ⟨⟨rfl, ⟨rfl, hIl, hIa⟩, hIb⟩, ⟨?_, ?_, ⟨?_, ?_, hBl, hBa⟩, hBb⟩,
        Or.inr ⟨?_, ?_⟩⟩
      all_goals try simp only [heightOf_nil, heightOf_node, Nat.max_def]
      all_goals first
        | (split_ifs <;> omega)
        | omega
    · split
      · rename_i hc
        exact absurd hc.1 (by omega)
      · split
        · rename_i hc
          obtain ⟨hbal, hvlt⟩ := hc
          have hr2 : heightOf r = heightOf l + 2 := by omega
          obtain ⟨rv, rc, rh, a, b, rfl, hdich⟩ := hshape hr2
          rw [valueOf_node] at hvlt
          rw [heightOf_node] at hr2
          obtain ⟨hrh, hIa, hIb⟩ := hIr
          obtain ⟨hle1, hle2, hBa, hBb⟩ := hBr
          rcases hdich with ⟨-, hab⟩ | ⟨hgt, -⟩
          swap
          · exact absurd hvlt (lt_asymm hgt)
          cases a with
          | nil => rw [heightOf_nil] at hab; omega
          | node mv mc mh m1 m2 =>
            rw [heightOf_node] at hab hrh hle1 hle2
            obtain ⟨hmh, hIm1, hIm2⟩ := hIa
            obtain ⟨hbm1, hbm2, hBm1, hBm2⟩ := hBa
            have e1 : max mh (heightOf b) = mh := max_eq_left (by omega)
            rw [e1] at hrh
            have hmv : mh = heightOf l + 1 := by omega
            have hb1 : heightOf b = heightOf l := by omega
            have hmf : heightOf m1 ≤ heightOf l ∧ heightOf l ≤ heightOf m1 + 1 ∧
                heightOf m2 ≤ heightOf l ∧ heightOf l ≤ heightOf m2 + 1 := by
              rcases max_cases (heightOf m1) (heightOf m2) with ⟨e, hle⟩ | ⟨e, hle⟩ <;>
                rw [e] at hmh <;> omega
            obtain ⟨hf1, hf2, hf3, hf4⟩ := hmf
            simp only [rightRotate, leftRotate]
            refine ⟨⟨rfl, ⟨rfl, hIl, hIm1⟩, rfl, hIm2, hIb⟩,
              ⟨?_, ?_, ⟨?_, ?_, hBl, hBm1⟩, ?_, ?_, hBm2, hBb⟩,
              Or.inr ⟨?_, ?_⟩⟩
            all_goals try simp only [heightOf_nil, heightOf_node, Nat.max_def]
            all_goals first
              | (split_ifs <;> omega)
              | omega
        · rename_i hn1 hn2 hn3 hn4
          have hle : heightOf r ≤ heightOf l + 1 := by
            by_contra hgtc
            have hr2 : heightOf r = heightOf l + 2 := by omega
            obtain ⟨rv, rc, rh, a, b, heq, hdich⟩ := hshape hr2
            subst heq
            rcases hdich with ⟨h1, -⟩ | ⟨h1, -⟩
            · exact hn4 ⟨by omega, by rw [valueOf_node]; exact h1⟩
            · exact hn2 ⟨by omega, by rw [valueOf_node]; exact h1⟩
          exact ⟨⟨rfl, hIl, hIr⟩, ⟨hlb, hle, hBl, hBr⟩, Or.inl ⟨hle, rfl⟩⟩

theorem insertAux_spec :
    ∀ (t : AVLTree) (value : Int), HeightInv t → BalancedH t →
    HeightInv (insertAux t value) ∧ BalancedH (insertAux t value) ∧
    heightOf t ≤ heightOf (insertAux t value) ∧
    heightOf (insertAux t value) ≤ heightOf t + 1 ∧
    (heightOf (insertAux t value) = heightOf t + 1 → t ≠ .nil →
      ∃ w cc hh a b, insertAux t value = .node w cc hh a b ∧
        ((value < w ∧ heightOf a = heightOf b + 1) ∨
          (w < value ∧ heightOf b = heightOf a + 1))) := by
  intro t
  induction t with
  | nil =>
    intro value _ _
    simp only [insertAux]
    refine ⟨⟨?_, trivial, trivial⟩, ⟨?_, ?_, trivial, trivial⟩, ?_, ?_,
      fun _ hne => absurd rfl hne⟩ <;>
      simp [heightOf_nil, heightOf_node]
  | node v c h l r ihl ihr =>
    intro value hI hB
    obtain ⟨hh, hIl, hIr⟩ := hI
    obtain ⟨hb1, hb2, hBl, hBr⟩ := hB
    subst hh
    simp only [insertAux]
    split
    · rename_i hvlt
      obtain ⟨hI2, hB2, hg1, hg2, hsh⟩ := ihl value hIl hBl
      have hshp : heightOf (insertAux l value) = heightOf r + 2 →
          ∃ lv lc lh a b, insertAux l value = .node lv lc lh a b ∧
            ((value < lv ∧ heightOf a = heightOf b + 1) ∨
              (lv < value ∧ heightOf b = heightOf a + 1)) := by
        intro hgrow
        have hln : l ≠ .nil := by
          intro hnil
          rw [hnil] at hgrow
          simp only [insertAux, heightOf_node, heightOf_nil] at hgrow
          omega
        exact hsh (by omega) hln
      obtain ⟨hI3, hB3, hcase⟩ :=
        rebalance_left_spec v value c (1 + max (heightOf l) (heightOf r))
          (insertAux l value) r hI2 hB2 hIr hBr (by omega) (by omega) hshp
      rcases hcase with ⟨hle, heq⟩ | ⟨h2eq, hres⟩
      · refine ⟨hI3, hB3, ?_, ?_, ?_⟩
        · rw [heq]
          simp only [heightOf_node, Nat.max_def]
          split_ifs <;> omega
        · rw [heq]
          simp only [heightOf_node, Nat.max_def]
          split_ifs <;> omega
        · intro hgrow hne0
          rw [heq] at hgrow ⊢
          simp only [heightOf_node] at hgrow
          refine ⟨v, c, _, _, _, rfl, Or.inl ⟨hvlt, ?_⟩⟩
          rcases max_cases (heightOf (insertAux l value)) (heightOf r) with ⟨e1, f1⟩ | ⟨e1, f1⟩ <;>
            rcases max_cases (heightOf l) (heightOf r) with ⟨e2, f2⟩ | ⟨e2, f2⟩ <;>
            rw [e1, e2] at hgrow <;> omega
      · refine ⟨hI3, hB3, ?_, ?_, ?_⟩
        · rw [hres]
          simp only [heightOf_node, Nat.max_def]
          split_ifs <;> omega
        · rw [hres]
          simp only [heightOf_node, Nat.max_def]
          split_ifs <;> omega
        · intro hgrow hne0
          rw [hres] at hgrow
          simp only [heightOf_node] at hgrow
          rcases max_cases (heightOf l) (heightOf r) with ⟨e2, f2⟩ | ⟨e2, f2⟩ <;>
            rw [e2] at hgrow <;> omega
    · split
      · rename_i hnlt hvgt
        obtain ⟨hI2, hB2, hg1, hg2, hsh⟩ := ihr value hIr hBr
        have hshp : heightOf (insertAux r value) = heightOf l + 2 →
            ∃ rv rc rh a b, insertAux r value = .node rv rc rh a b ∧
              ((value < rv ∧ heightOf a = heightOf b + 1) ∨
                (rv < value ∧ heightOf b = heightOf a + 1)) := by
          intro hgrow
          have hrn : r ≠ .nil := by
            intro hnil
            rw [hnil] at hgrow
            simp only [insertAux, heightOf_node, heightOf_nil] at hgrow
            omega
          exact hsh (by omega) hrn
        obtain ⟨hI3, hB3, hcase⟩ :=
          rebalance_right_spec v value c (1 + max (heightOf l) (heightOf r))
            l (insertAux r value) hIl hBl hI2 hB2 (by omega) (by omega) hshp
        rcases hcase with ⟨hle, heq⟩ | ⟨h2eq, hres⟩
        · refine ⟨hI3, hB3, ?_, ?_, ?_⟩
          · rw [heq]
            simp only [heightOf_node, Nat.max_def]
            split_ifs <;> omega
          · rw [heq]
            simp only [heightOf_node, Nat.max_def]
            split_ifs <;> omega
          · intro hgrow hne0
            rw [heq] at hgrow ⊢
            simp only [heightOf_node] at hgrow
            refine ⟨v, c, _, _, _, rfl, Or.inr ⟨hvgt, ?_⟩⟩
            rcases max_cases (heightOf l) (heightOf (insertAux r value)) with ⟨e1, f1⟩ | ⟨e1, f1⟩ <;>
              rcases max_cases (heightOf l) (heightOf r) with ⟨e2, f2⟩ | ⟨e2, f2⟩ <;>
              rw [e1, e2] at hgrow <;> omega
        · refine ⟨hI3, hB3, ?_, ?_, ?_⟩
          · rw [hres]
            simp only [heightOf_node, Nat.max_def]
            split_ifs <;> omega
          · rw [hres]
            simp only [heightOf_node, Nat.max_def]
            split_ifs <;> omega
          · intro hgrow hne0
            rw [hres] at hgrow
            simp only [heightOf_node] at hgrow
            rcases max_cases (heightOf l) (heightOf r) with ⟨e2, f2⟩ | ⟨e2, f2⟩ <;>
              rw [e2] at hgrow <;> omega
      · refine ⟨⟨rfl, hIl, hIr⟩, ⟨hb1, hb2, hBl, hBr⟩, ?_, ?_, ?_⟩
        · simp only [heightOf_node]
          exact le_refl _
        · simp only [heightOf_node]
          omega
        · intro hgrow hne0
          simp only [heightOf_node] at hgrow
          rcases max_cases (heightOf l) (heightOf r) with ⟨e2, f2⟩ | ⟨e2, f2⟩ <;>
            rw [e2] at hgrow <;> omega

theorem good_foldl :
    ∀ (xs : List Int) (t : AVLTree), HeightInv t → BalancedH t →
      HeightInv (xs.foldl insert t) ∧ BalancedH (xs.foldl insert t)
  | [], _, hI, hB => ⟨hI, hB⟩
  | x :: xs, t, hI, hB =>
    good_foldl xs (insert t x) (insertAux_spec t x hI hB).1 (insertAux_spec t x hI hB).2.1

theorem heightInv_insertList (xs : List Int) : HeightInv (insertList xs) :=
  (good_foldl xs .nil trivial trivial).1

theorem balancedH_insertList (xs : List Int) : BalancedH (insertList xs) :=
  (good_foldl xs .nil trivial trivial).2

theorem checkNode_eq :
    ∀ t : AVLTree, HeightInv t → BalancedH t → checkNode t = (true, heightOf t) := by
  intro t
  induction t with
  | nil => intro _ _; rfl
  | node v c hh l r ihl ihr =>
    intro hI hB
    obtain ⟨hh1, hIl, hIr⟩ := hI
    obtain ⟨hb1, hb2, hBl, hBr⟩ := hB
    have hd : (((heightOf l : Int) - (heightOf r : Int)).natAbs ≤ 1) := by omega
    simp only [checkNode, ihr hIr hBr, ihl hIl hBl, decide_eq_true hd,
      Bool.and_self, Bool.and_true, heightOf_node]
    rw [hh1]

theorem verify_of_good (t : AVLTree) (hI : HeightInv t) (hB : BalancedH t) :
    verifyAvlProperty t = true := by
  simp only [verifyAvlProperty, checkNode_eq t hI hB]

theorem heightOf_incCount {v : Int} :
    ∀ t : AVLTree, heightOf (incCount t v) = heightOf t := by
  intro t
  cases t with
  | nil => rfl
  | node w c hh l r =>
    simp only [incCount]
    split
    · rfl
    · split <;> rfl

theorem insertAux_eq_incCount {v : Int} :
    ∀ t : AVLTree, Ordered t → HeightInv t → BalancedH t → Mem v t →
      insertAux t v = incCount t v := by
  intro t
  induction t with
  | nil => intro _ _ _ hm; exact absurd hm id
  | node w c hh l r ihl ihr =>
    intro hord hI hB hm
    obtain ⟨h1, h2, h3, h4⟩ := hord
    obtain ⟨hh1, hIl, hIr⟩ := hI
    obtain ⟨hb1, hb2, hBl, hBr⟩ := hB
    simp only [insertAux, incCount]
    by_cases hvw : v < w
    · have hml : Mem v l := by
        rcases hm with h | h | h
        · exact absurd (h ▸ hvw) (lt_irrefl w)
        · exact h
        · exact absurd (All_mem (p := fun y => w < y) h2 h) (lt_asymm hvw)
      simp only [if_pos hvw, ihl h3 hIl hBl hml]
      simp only [rebalance, heightOf_incCount]
      rw [if_neg (by rintro ⟨hx, -⟩; omega), if_neg (by rintro ⟨hx, -⟩; omega),
        if_neg (by rintro ⟨hx, -⟩; omega), if_neg (by rintro ⟨hx, -⟩; omega), ← hh1]
    · by_cases hwv : w < v
      · have hmr : Mem v r := by
          rcases hm with h | h | h
          · exact absurd (h ▸ hwv) (lt_irrefl w)
          · exact absurd (All_mem (p := fun y => y < w) h1 h) (lt_asymm hwv)
          · exact h
        simp only [if_neg hvw, if_pos hwv, ihr h4 hIr hBr hmr]
        simp only [rebalance, heightOf_incCount]
        rw [if_neg (by rintro ⟨hx, -⟩; omega), if_neg (by rintro ⟨hx, -⟩; omega),
          if_neg (by rintro ⟨hx, -⟩; omega), if_neg (by rintro ⟨hx, -⟩; omega), ← hh1]
      · simp only [if_neg hvw, if_neg hwv]

theorem nodeCount_incCount {v : Int} :
    ∀ t : AVLTree, nodeCount (incCount t v) = nodeCount t := by
  intro t
  induction t with
  | nil => rfl
  | node w c hh l r ihl ihr =>
    simp only [incCount]
    split
    · simp [nodeCount, ihl]
    · split
      · simp [nodeCount, ihr]
      · rfl

theorem foldl_replicate (v : Int) :
    ∀ (k cc : Nat),
      (List.replicate k v).foldl insert (.node v cc 1 .nil .nil) = .node v (cc + k) 1 .nil .nil
  | 0, cc => by simp [List.replicate]
  | k + 1, cc => by
    rw [List.replicate_succ, List.foldl_cons]
    have hstep : insert (.node v cc 1 .nil .nil) v = .node v (cc + 1) 1 .nil .nil := by
      simp [insert, insertAux]
    rw [hstep, foldl_replicate v k (cc + 1)]
    congr 1
    omega

theorem insertList_replicate (v : Int) (k : Nat) (hk : 1 ≤ k) :
    insertList (List.replicate k v) = .node v k 1 .nil .nil := by
  cases k with
  | zero => omega
  | succ j =>
    rw [List.replicate_succ]
    simp only [insertList, List.foldl_cons]
    have hstep : insert .nil v = .node v 1 1 .nil .nil := rfl
    rw [hstep, foldl_replicate v j 1]
    congr 1
    omega

end AVL

namespace BST

theorem foldl_replicateB (v : Int) :
    ∀ (k cc : Nat),
      (List.replicate k v).foldl insert (.node v cc .nil .nil) = .node v (cc + k) .nil .nil
  | 0, cc => by simp [List.replicate]
  | k + 1, cc => by
    rw [List.replicate_succ, List.foldl_cons]
    have hstep : insert (.node v cc .nil .nil) v = .node v (cc + 1) .nil .nil := by
      simp [insert, insertAux]
    rw [hstep, foldl_replicateB v k (cc + 1)]
    congr 1
    omega

theorem insertList_replicateB (v : Int) (k : Nat) (hk : 1 ≤ k) :
    insertList (List.replicate k v) = .node v k .nil .nil := by
  cases k with
  | zero => omega
  | succ j =>
    rw [List.replicate_succ]
    simp only [insertList, List.foldl_cons]
    have hstep : insert .nil v = .node v 1 .nil .nil := rfl
    rw [hstep, foldl_replicateB v j 1]
    congr 1
    omega

end BST

theorem minmax_agree (xs : List Int) :
    BST.getMax (BST.insertList xs) = AVL.getMax (AVL.insertList xs) ∧
    BST.getMin (BST.insertList xs) = AVL.getMin (AVL.insertList xs) := by
  cases xs with
  | nil => exact ⟨rfl, rfl⟩
  | cons y ys =>
    have hbne : BST.insertList (y :: ys) ≠ .nil := by
      rw [Ne, BST.insertList_eq_nil_iffB]; simp
    have hane : AVL.insertList (y :: ys) ≠ .nil := by
      rw [Ne, AVL.insertList_eq_nil_iff]; simp
    obtain ⟨m1, he1, hm1, hub1⟩ := BST.getMax_specB (BST.ordered_insertListB (y :: ys)) hbne
    obtain ⟨m2, he2, hm2, hub2⟩ := AVL.getMax_spec (AVL.ordered_insertList (y :: ys)) hane
    obtain ⟨n1, hf1, hn1, hlb1⟩ := BST.getMin_specB (BST.ordered_insertListB (y :: ys)) hbne
    obtain ⟨n2, hf2, hn2, hlb2⟩ := AVL.getMin_spec (AVL.ordered_insertList (y :: ys)) hane
    rw [BST.mem_insertListB] at hm1 hn1
    rw [AVL.mem_insertList] at hm2 hn2
    have e1 : m1 = m2 :=
      le_antisymm (hub2 m1 ((AVL.mem_insertList (y :: ys)).mpr hm1))
        (hub1 m2 ((BST.mem_insertListB (y :: ys)).mpr hm2))
    have e2 : n1 = n2 :=
      le_antisymm (hlb1 n2 ((BST.mem_insertListB (y :: ys)).mpr hn2))
        (hlb2 n1 ((AVL.mem_insertList (y :: ys)).mpr hn1))
    exact ⟨by rw [he1, he2, e1], by rw [hf1, hf2, e2]⟩

/-- Claim C1: for every sequence of insertions into a fresh AVL tree,
`verify_avl_property()` returns true after every insertion (every prefix of
a sequence is itself a sequence, so quantifying over all sequences covers
"after every insertion"), including sorted and reverse-sorted input. -/
theorem claim_C1_verify_avl_always_true (xs : List Int) :
    AVL.verifyAvlProperty (AVL.insertList xs) = true :=
  AVL.verify_of_good (AVL.insertList xs) (AVL.heightInv_insertList xs)
    (AVL.balancedH_insertList xs)

/-- Claim C2: for every insertion sequence (duplicates included), `get_sum()`
on either structure returns the arithmetic sum of the inserted values, and
`get_sum()` of an empty tree is 0. -/
theorem claim_C2_get_sum_correct (xs : List Int) :
    BST.getSum (BST.insertList xs) = xs.sum ∧
    AVL.getSum (AVL.insertList xs) = xs.sum ∧
    BST.getSum .nil = 0 ∧ AVL.getSum .nil = 0 :=
  ⟨BST.getSum_insertListB xs, AVL.getSum_insertList xs, rfl, rfl⟩

/-- Claim C3: for every non-empty insertion sequence, `get_min()` returns the
minimum and `get_max()` the maximum of the inserted values, on both
structures (the minimum/maximum of the distinct values equals that of the
full sequence). -/
theorem claim_C3_min_max_correct (xs : List Int) (mn mx : Int)
    (hmn : mn ∈ xs) (hmx : mx ∈ xs)
    (hlb : ∀ y ∈ xs, mn ≤ y) (hub : ∀ y ∈ xs, y ≤ mx) :
    BST.getMin (BST.insertList xs) = some mn ∧
    BST.getMax (BST.insertList xs) = some mx ∧
    AVL.getMin (AVL.insertList xs) = some mn ∧
    AVL.getMax (AVL.insertList xs) = some mx := by
  have hne : xs ≠ [] := List.ne_nil_of_mem hmn
  have hbne : BST.insertList xs ≠ .nil := fun h => hne ((BST.insertList_eq_nil_iffB xs).mp h)
  have hane : AVL.insertList xs ≠ .nil := fun h => hne ((AVL.insertList_eq_nil_iff xs).mp h)
  obtain ⟨n1, hf1, hn1, hlb1⟩ := BST.getMin_specB (BST.ordered_insertListB xs) hbne
  obtain ⟨m1, he1, hm1, hub1⟩ := BST.getMax_specB (BST.ordered_insertListB xs) hbne
  obtain ⟨n2, hf2, hn2, hlb2⟩ := AVL.getMin_spec (AVL.ordered_insertList xs) hane
  obtain ⟨m2, he2, hm2, hub2⟩ := AVL.getMax_spec (AVL.ordered_insertList xs) hane
  rw [BST.mem_insertListB] at hn1 hm1
  rw [AVL.mem_insertList] at hn2 hm2
  refine ⟨?_, ?_, ?_, ?_⟩
  · rw [hf1, le_antisymm (hlb1 mn ((BST.mem_insertListB xs).mpr hmn)) (hlb n1 hn1)]
  · rw [he1, le_antisymm (hub m1 hm1) (hub1 mx ((BST.mem_insertListB xs).mpr hmx))]
  · rw [hf2, le_antisymm (hlb2 mn ((AVL.mem_insertList xs).mpr hmn)) (hlb n2 hn2)]
  · rw [he2, le_antisymm (hub m2 hm2) (hub2 mx ((AVL.mem_insertList xs).mpr hmx))]

theorem claim_C3_witness :
    BST.getMin (BST.insertList [2, 1, 3]) = some 1 ∧
    BST.getMax (BST.insertList [2, 1, 3]) = some 3 ∧
    AVL.getMin (AVL.insertList [2, 1, 3]) = some 1 ∧
    AVL.getMax (AVL.insertList [2, 1, 3]) = some 3 :=
  claim_C3_min_max_correct [2, 1, 3] 1 3 (by decide) (by decide) (by decide) (by decide)

/-- Claim C4: after every insertion sequence, every node of either structure
satisfies the ordering invariant (left-subtree values strictly below the
node's value, right-subtree values strictly above). -/
theorem claim_C4_ordering_invariant (xs : List Int) :
    BST.Ordered (BST.insertList xs) ∧ AVL.Ordered (AVL.insertList xs) :=
  ⟨BST.ordered_insertListB xs, AVL.ordered_insertList xs⟩

/-- Claim C5: `get_min`/`get_max` fail (return `none`, the embedded
`EmptyTreeError`) exactly on the tree with zero nodes, and the tree built
from an insertion sequence has zero nodes exactly when the sequence is
empty; `insert`, `get_sum` and `verify_avl_property` are total Lean
functions and never fail. -/
theorem claim_C5_empty_tree_error_iff :
    (∀ t : BSTree, BST.getMin t = none ↔ t = .nil) ∧
    (∀ t : BSTree, BST.getMax t = none ↔ t = .nil) ∧
    (∀ t : AVLTree, AVL.getMin t = none ↔ t = .nil) ∧
    (∀ t : AVLTree, AVL.getMax t = none ↔ t = .nil) ∧
    (∀ xs : List Int, BST.insertList xs = .nil ↔ xs = []) ∧
    (∀ xs : List Int, AVL.insertList xs = .nil ↔ xs = []) :=
  ⟨BST.getMin_eq_none_iffB, BST.getMax_eq_none_iffB, AVL.getMin_eq_none_iff,
    AVL.getMax_eq_none_iff, BST.insertList_eq_nil_iffB, AVL.insertList_eq_nil_iff⟩

/-- Claim C6: inserting the same value k ≥ 1 times yields exactly one node
with `count = k`; inserting a value already present only increments that
node's `count` (no new node, no restructuring), so the node count is
unchanged. -/
theorem claim_C6_multiplicity (v : Int) (k : Nat) (xs : List Int)
    (hk : 1 ≤ k) (hv : v ∈ xs) :
    BST.insertList (List.replicate k v) = .node v k .nil .nil ∧
    AVL.insertList (List.replicate k v) = .node v k 1 .nil .nil ∧
    BST.insert (BST.insertList xs) v = BST.incCount (BST.insertList xs) v ∧
    AVL.insert (AVL.insertList xs) v = AVL.incCount (AVL.insertList xs) v ∧
    BST.nodeCount (BST.insert (BST.insertList xs) v) = BST.nodeCount (BST.insertList xs) ∧
    AVL.nodeCount (AVL.insert (AVL.insertList xs) v) = AVL.nodeCount (AVL.insertList xs) := by
  have hb := BST.insertAux_eq_incCountB (BST.insertList xs) (BST.ordered_insertListB xs)
    ((BST.mem_insertListB xs).mpr hv)
  have ha := AVL.insertAux_eq_incCount (AVL.insertList xs) (AVL.ordered_insertList xs)
    (AVL.heightInv_insertList xs) (AVL.balancedH_insertList xs)
    ((AVL.mem_insertList xs).mpr hv)
  refine ⟨BST.insertList_replicateB v k hk, AVL.insertList_replicate v k hk, hb, ha, ?_, ?_⟩
  · rw [BST.insert, hb, BST.nodeCount_incCountB]
  · rw [AVL.insert, ha, AVL.nodeCount_incCount]

theorem claim_C6_witness :
    BST.insertList (List.replicate 2 5) = .node 5 2 .nil .nil ∧
    AVL.insertList (List.replicate 2 5) = .node 5 2 1 .nil .nil ∧
    BST.insert (BST.insertList [5, 3]) 5 = BST.incCount (BST.insertList [5, 3]) 5 ∧
    AVL.insert (AVL.insertList [5, 3]) 5 = AVL.incCount (AVL.insertList [5, 3]) 5 ∧
    BST.nodeCount (BST.insert (BST.insertList [5, 3]) 5) = BST.nodeCount (BST.insertList [5, 3]) ∧
    AVL.nodeCount (AVL.insert (AVL.insertList [5, 3]) 5) = AVL.nodeCount (AVL.insertList [5, 3]) :=
  claim_C6_multiplicity 5 2 [5, 3] (by decide) (by decide)

/-- Claim C7: after every insertion sequence, every node of the AVL tree has
its stored `height` field equal to `1 + max` of its children's heights,
with an absent child counting as height 0 (duplicate insertions, which skip
the height recomputation at the duplicated node, included). -/
theorem claim_C7_stored_heights_correct (xs : List Int) :
    AVL.HeightInv (AVL.insertList xs) :=
  AVL.heightInv_insertList xs

/-- Claim C8: a left rotation at `z` with pivot `y = z.right` makes `y` the
subtree root, `z` its left child, and `y`'s old left subtree `z`'s new right
child, recomputing the height of `z` and then of `y`; the right rotation is
the mirror image; both preserve the in-order (value, count) sequence. -/
theorem claim_C8_rotation_semantics :
    (∀ (zv yv : Int) (zc yc zh yh : Nat) (zl yl yr : AVLTree),
      AVL.leftRotate (.node zv zc zh zl (.node yv yc yh yl yr)) =
        .node yv yc
          (1 + max (1 + max (AVL.heightOf zl) (AVL.heightOf yl)) (AVL.heightOf yr))
          (.node zv zc (1 + max (AVL.heightOf zl) (AVL.heightOf yl)) zl yl) yr) ∧
    (∀ (zv yv : Int) (zc yc zh yh : Nat) (yl yr zr : AVLTree),
      AVL.rightRotate (.node zv zc zh (.node yv yc yh yl yr) zr) =
        .node yv yc
          (1 + max (AVL.heightOf yl) (1 + max (AVL.heightOf yr) (AVL.heightOf zr)))
          yl (.node zv zc (1 + max (AVL.heightOf yr) (AVL.heightOf zr)) yr zr)) ∧
    (∀ t : AVLTree, AVL.inorder (AVL.leftRotate t) = AVL.inorder t) ∧
    (∀ t : AVLTree, AVL.inorder (AVL.rightRotate t) = AVL.inorder t) :=
  ⟨fun _ _ _ _ _ _ _ _ _ => rfl, fun _ _ _ _ _ _ _ _ _ => rfl,
    AVL.inorder_leftRotate, AVL.inorder_rightRotate⟩

/-- Claim C9: the two structures are observationally interchangeable: for
every insertion sequence applied to both, `get_min`, `get_max` and
`get_sum` agree, and the empty-tree error occurs on one exactly when it
occurs on the other. -/
theorem claim_C9_bst_avl_interchangeable (xs : List Int) :
    BST.getSum (BST.insertList xs) = AVL.getSum (AVL.insertList xs) ∧
    BST.getMin (BST.insertList xs) = AVL.getMin (AVL.insertList xs) ∧
    BST.getMax (BST.insertList xs) = AVL.getMax (AVL.insertList xs) ∧
    (BST.getMin (BST.insertList xs) = none ↔ AVL.getMin (AVL.insertList xs) = none) ∧
    (BST.getMax (BST.insertList xs) = none ↔ AVL.getMax (AVL.insertList xs) = none) := by
  obtain ⟨hmax, hmin⟩ := minmax_agree xs
  refine ⟨?_, hmin, hmax, by rw [hmin], by rw [hmax]⟩
  rw [BST.getSum_insertListB, AVL.getSum_insertList]

/-- Claim C10: `verify_avl_property()` on an empty tree (no root, zero
insertions) returns true. -/
theorem claim_C10_verify_empty :
    AVL.verifyAvlProperty .nil = true ∧ AVL.insertList [] = .nil :=
  ⟨rfl, rfl⟩
